import Mathlib

/-!
Verification of the coverage-report generator `analyze_coverage2.py`.

The script reads a nested coverage record (binary → source-file path →
namespace → method signature → method detail), flattens it into method
entries, aggregates by file basename, and prints several derived views.
We embed the record as nested association lists (Python dicts iterate in
insertion order), hit counts as integers, and percentages as exact
rationals; Python's `/`, which raises on a zero denominator, is embedded
as an `Option`-valued division.
-/

namespace AnalyzeCoverage

/-- A branch record of the input: a JSON object that may or may not carry a
`Hits` field (the script reads it with `b.get('Hits', 0)`). -/
structure Branch where
  Hits : Option Int
deriving DecidableEq, Repr

/-- The line mapping of a method detail: the items of the JSON object mapping
a line-number key to an integer hit count. -/
abbrev LineMap := List (String × Int)

/-- A method detail as found in the record.  The script guards with
`isinstance(method_info, dict) and 'Lines' in method_info`, so a detail is
either not a dict at all (`notDict`), or a dict whose `Lines` and `Branches`
fields may each be present or absent. -/
inductive MethodInfo where
  | notDict : MethodInfo
  | dict : Option LineMap → Option (List Branch) → MethodInfo
deriving DecidableEq, Repr

/-- The whole coverage record: binary name → file path → namespace →
method signature → method detail, as nested insertion-ordered maps. -/
abbrev CoverageData :=
  List (String × List (String × List (String × List (String × MethodInfo))))

/-- The flattened per-method record appended to `all_methods`
(source lines 26-35). -/
structure MethodEntry where
  file : String
  ns : String
  method : String
  full_method : String
  covered : Nat
  total : Nat
  coverage : ℚ
  branches : List Branch
deriving DecidableEq, Repr

/-- `coverage_pct = (covered / total * 100) if total > 0 else 0`
(source line 19). -/
def coverage_pct (covered total : Nat) : ℚ :=
  if total > 0 then (covered : ℚ) / (total : ℚ) * 100 else 0

/-- Python's `str.split` with a one-character separator, on the character
list: split at every occurrence of `sep`, keeping empty pieces.  The result
is always nonempty. -/
def splitOnChar (sep : Char) : List Char → List (List Char)
  | [] => [[]]
  | c :: rest =>
    if c = sep then [] :: splitOnChar sep rest
    else
      match splitOnChar sep rest with
      | [] => [[c]]
      | p :: ps => (c :: p) :: ps

/-- Python's `str.split` with a two-character separator `⟨a, b⟩`, on the
character list: split at every leftmost non-overlapping occurrence. -/
def splitOnTwo (a b : Char) : List Char → List (List Char)
  | [] => [[]]
  | [c] => [[c]]
  | c :: d :: rest =>
    if c = a ∧ d = b then [] :: splitOnTwo a b rest
    else
      match splitOnTwo a b (d :: rest) with
      | [] => [[c]]
      | p :: ps => (c :: p) :: ps

/-- `s.split(sep)` for a one-character `sep`. -/
def pySplitChar (sep : Char) (s : String) : List String :=
  (splitOnChar sep s.data).map String.mk

/-- `s.split(sep)` for a two-character `sep`. -/
def pySplitTwo (a b : Char) (s : String) : List String :=
  (splitOnTwo a b s.data).map String.mk

/-- `file_key = file_path.split('\\')[-1]` (source line 21): the basename,
i.e. the last backslash-separated component.  The split result is always
nonempty, so the default of `getLastD` is never used. -/
def file_key (file_path : String) : String :=
  (pySplitChar (Char.ofNat 92) file_path).getLastD file_path

/-- Source lines 23-24: take the text after the last `::`, then truncate at
the first `(`.  Python guards each step with a containment test, but
`split(sep)[-1]` (resp. `[0]`) returns the whole string when `sep` is absent,
which is exactly `getLastD` (resp. `headD`) on the split. -/
def method_short (method_name : String) : String :=
  let s := (pySplitTwo ':' ':' method_name).getLastD method_name
  (pySplitChar '(' s).headD s

/-- Python's `<=` on strings, on the character lists: lexicographic
comparison by code point. -/
def strLeChars : List Char → List Char → Bool
  | [], _ => true
  | _ :: _, [] => false
  | c :: cs, d :: ds =>
    if c.toNat < d.toNat then true
    else if d.toNat < c.toNat then false
    else strLeChars cs ds

/-- Python's `<=` on strings. -/
def pyStrLe (a b : String) : Bool :=
  strLeChars a.data b.data

/-- `covered = sum(1 for v in lines.values() if v > 0)` (source line 17). -/
def coveredCount (lines : LineMap) : Nat :=
  lines.countP (fun p => decide (0 < p.2))

/-- Source lines 14-35: the entries one method detail contributes to
`all_methods` (one entry when the detail is a dict with a nonempty `Lines`
mapping, none otherwise). -/
def methodEntry (file_path ns_name method_name : String) :
    MethodInfo → List MethodEntry
  | MethodInfo.notDict => []
  | MethodInfo.dict none _ => []
  | MethodInfo.dict (some lines) branches =>
    if lines.isEmpty then []
    else
      [{ file := file_key file_path
         ns := ns_name
         method := method_short method_name
         full_method := method_name
         covered := coveredCount lines
         total := lines.length
         coverage := coverage_pct (coveredCount lines) lines.length
         branches := branches.getD [] }]

/-- Entries contributed by one namespace (source line 13). -/
def nsEntries (file_path ns_name : String)
    (methods : List (String × MethodInfo)) : List MethodEntry :=
  methods.flatMap fun m => methodEntry file_path ns_name m.1 m.2

/-- Entries contributed by one source file (source line 12). -/
def fileEntries (file_path : String)
    (namespaces : List (String × List (String × MethodInfo))) :
    List MethodEntry :=
  namespaces.flatMap fun p => nsEntries file_path p.1 p.2

/-- Entries contributed by one binary (source line 11). -/
def binEntries
    (files : List (String × List (String × List (String × MethodInfo)))) :
    List MethodEntry :=
  files.flatMap fun p => fileEntries p.1 p.2

/-- `all_methods` (source lines 7-35): the flattened method list, in
traversal order of the nested record. -/
def all_methods (coverage_data : CoverageData) : List MethodEntry :=
  coverage_data.flatMap fun p => binEntries p.2

/-- The default value of the `defaultdict` at source line 41: accumulated
covered/total line counts and the entries belonging to the file. -/
structure FileAgg where
  lines_covered : Nat
  lines_total : Nat
  methods : List MethodEntry
deriving DecidableEq, Repr

/-- One step of the grouping loop (source lines 43-47): bump the aggregate
stored under `m.file`, materialising the defaultdict's zero aggregate when
the key is seen for the first time (appended at the end, matching dict
insertion order). -/
def updateAgg (acc : List (String × FileAgg)) (m : MethodEntry) :
    List (String × FileAgg) :=
  match acc with
  | [] => [(m.file, ⟨m.covered, m.total, [m]⟩)]
  | (k, a) :: rest =>
    if k = m.file then
      (k, ⟨a.lines_covered + m.covered, a.lines_total + m.total,
           a.methods ++ [m]⟩) :: rest
    else (k, a) :: updateAgg rest m

/-- `coverage_by_file` (source lines 40-47) as an insertion-ordered
association list from file key to aggregate. -/
def coverage_by_file (ms : List MethodEntry) : List (String × FileAgg) :=
  ms.foldl updateAgg []

/-- Association-list lookup, used to model `coverage_by_file[file_key]`. -/
def findAgg (k : String) : List (String × FileAgg) → Option FileAgg
  | [] => none
  | (k2, a) :: rest => if k2 = k then some a else findAgg k rest

/-- Indexing into the defaultdict: a missing key yields the zero aggregate. -/
def dget (cbf : List (String × FileAgg)) (k : String) : FileAgg :=
  (findAgg k cbf).getD ⟨0, 0, []⟩

/-- `file_coverage` (source line 53): the per-file percentage, guarded
against a zero total. -/
def file_coverage (stats : FileAgg) : ℚ :=
  if stats.lines_total > 0 then
    (stats.lines_covered : ℚ) / (stats.lines_total : ℚ) * 100
  else 0

/-- Stable insertion of `x` in front of the first element `y` with
`le x y = true`.  Used with `foldr`, each inserted element precedes all
already-placed elements in the original list, so placing it before the
first element that is not strictly smaller reproduces the stability of
Python's `sorted`. -/
def insertBy (le : α → α → Bool) (x : α) : List α → List α
  | [] => [x]
  | y :: ys => if le x y then x :: y :: ys else y :: insertBy le x ys

/-- Stable sort by the boolean preorder `le`, modelling Python's
`sorted(l, key=...)`. -/
def sortBy (le : α → α → Bool) (l : List α) : List α :=
  l.foldr (insertBy le) []

/-- `sorted(coverage_by_file.keys())` (source line 51): the file keys in
ascending lexicographic order. -/
def sortedKeys (cbf : List (String × FileAgg)) : List String :=
  sortBy pyStrLe (cbf.map Prod.fst)

/-- One tuple `(file_key, file_coverage, covered, total)` of `file_stats`
(source line 54). -/
structure FileStat where
  key : String
  cov : ℚ
  covered : Nat
  total : Nat
deriving DecidableEq, Repr

/-- `file_stats` (source lines 50-54): one tuple per file, built iterating
the keys in sorted order. -/
def file_stats (ms : List MethodEntry) : List FileStat :=
  let cbf := coverage_by_file ms
  (sortedKeys cbf).map fun k =>
    let stats := dget cbf k
    ⟨k, file_coverage stats, stats.lines_covered, stats.lines_total⟩

/-- The order the per-file ranking is printed in (source line 56):
`sorted(file_stats, key=lambda x: x[1])`, a stable sort by ascending
coverage percentage. -/
def file_ranking (ms : List MethodEntry) : List FileStat :=
  sortBy (fun a b => decide (a.cov ≤ b.cov)) (file_stats ms)

/-- `uncovered` (source lines 60-61): the 0%-coverage entries, stable-sorted
by descending total line count (`key=lambda x: -x['total']`). -/
def uncovered (ms : List MethodEntry) : List MethodEntry :=
  sortBy (fun a b => decide (b.total ≤ a.total))
    (ms.filter fun m => decide (m.coverage = 0))

/-- The uncovered-methods section (source lines 66-70): the entries printed
(indices 0-19) and, when the loop reaches index 20, the
`... and {len(uncovered) - 20} more` remainder count. -/
def uncovered_report (ms : List MethodEntry) :
    List MethodEntry × Option Nat :=
  let u := uncovered ms
  (u.take 20, if u.length > 20 then some (u.length - 20) else none)

/-- `b.get('Hits', 0) == 0` (source lines 78, 83, 84): a branch counts as
uncovered when its hit count, defaulting to 0 if the field is absent, is 0. -/
def branchIsUncovered (b : Branch) : Bool :=
  decide (b.Hits.getD 0 = 0)

/-- `uncovered_branches` (source line 78): the count annotated onto each
incompletely covered method. -/
def uncovered_branches (m : MethodEntry) : Nat :=
  m.branches.countP branchIsUncovered

/-- The tuple built for each method in the branch gap analysis
(source line 83). -/
def branchTuple (m : MethodEntry) : String × String × String × Nat × Nat :=
  (m.file, m.ns, m.method, (m.branches.filter branchIsUncovered).length,
   m.branches.length)

/-- `methods_with_uncovered_branches` (source lines 83-85): tuples for the
methods having at least one uncovered branch, stable-sorted by descending
uncovered-branch count (`key=lambda x: -x[3]`). -/
def methods_with_uncovered_branches (ms : List MethodEntry) :
    List (String × String × String × Nat × Nat) :=
  sortBy (fun a b => decide (b.2.2.2.1 ≤ a.2.2.2.1))
    ((ms.filter fun m => m.branches.any branchIsUncovered).map branchTuple)

/-- `total_lines = sum(m['total'] for m in all_methods)` (source line 92). -/
def total_lines (ms : List MethodEntry) : Nat :=
  (ms.map MethodEntry.total).sum

/-- `total_covered = sum(m['covered'] for m in all_methods)`
(source line 93). -/
def total_covered (ms : List MethodEntry) : Nat :=
  (ms.map MethodEntry.covered).sum

/-- Python's true division `a / b`, which raises `ZeroDivisionError` when
`b = 0`; the failure is embedded as `none`. -/
def pydiv (a b : ℚ) : Option ℚ :=
  if b = 0 then none else some (a / b)

/-- The overall summary percentage
`total_covered / total_lines * 100` (source line 94).  Unlike lines 19 and
53 this division carries no zero guard in the source, so the result is a
division error (`none`) when the total is 0. -/
def overall_line_coverage (ms : List MethodEntry) : Option ℚ :=
  (pydiv (total_covered ms) (total_lines ms)).map (· * 100)

/-! ### Generic facts about the stable sort -/

theorem insertBy_eq_pos {le : α → α → Bool} {x y : α} {ys : List α}
    (h : le x y = true) : insertBy le x (y :: ys) = x :: y :: ys := by
  simp [insertBy, h]

theorem insertBy_eq_neg {le : α → α → Bool} {x y : α} {ys : List α}
    (h : ¬ le x y = true) :
    insertBy le x (y :: ys) = y :: insertBy le x ys := by
  simp [insertBy, h]

theorem insertBy_perm (le : α → α → Bool) (x : α) (l : List α) :
    (insertBy le x l).Perm (x :: l) := by
  induction l with
  | nil => simp [insertBy]
  | cons y ys ih =>
    by_cases h : le x y = true
    · rw [insertBy_eq_pos h]
    · rw [insertBy_eq_neg h]
      exact (ih.cons y).trans (List.Perm.swap x y ys)

theorem sortBy_perm (le : α → α → Bool) (l : List α) :
    (sortBy le l).Perm l := by
  induction l with
  | nil => simp [sortBy]
  | cons x xs ih =>
    exact (insertBy_perm le x (sortBy le xs)).trans (ih.cons x)

theorem mem_insertBy {le : α → α → Bool} {x y : α} {l : List α} :
    y ∈ insertBy le x l ↔ y = x ∨ y ∈ l := by
  rw [(insertBy_perm le x l).mem_iff]
  simp

/-- Inserting `x` keeps the running invariant of the stable sort: every
earlier element is `le`-below every later one, and a later element that is
also `le`-below an earlier one (an `le`-tie) was already `R`-related to it
in the original list. -/
theorem insertBy_pairwise (le : α → α → Bool) (R : α → α → Prop)
    (htot : ∀ a b, le a b = true ∨ le b a = true)
    (htrans : ∀ a b c, le a b = true → le b c = true → le a c = true)
    {x : α} {l : List α}
    (hx : ∀ y ∈ l, R x y)
    (hl : l.Pairwise (fun a b => le a b = true ∧ (le b a = true → R a b))) :
    (insertBy le x l).Pairwise
      (fun a b => le a b = true ∧ (le b a = true → R a b)) := by
  induction l with
  | nil => simp [insertBy]
  | cons y ys ih =>
    rcases List.pairwise_cons.mp hl with ⟨hy, hys⟩
    by_cases h : le x y = true
    · rw [insertBy_eq_pos h]
      refine List.pairwise_cons.mpr ⟨?_, hl⟩
      intro z hz
      rcases List.mem_cons.mp hz with rfl | hz
      · exact ⟨h, fun _ => hx z (List.mem_cons_self z ys)⟩
      · exact ⟨htrans x y z h (hy z hz).1,
          fun _ => hx z (List.mem_cons_of_mem y hz)⟩
    · rw [insertBy_eq_neg h]
      refine List.pairwise_cons.mpr
        ⟨?_, ih (fun z hz => hx z (List.mem_cons_of_mem y hz)) hys⟩
      intro z hz
      rcases mem_insertBy.mp hz with rfl | hz
      · rcases htot y z with hyz | hzy
        · exact ⟨hyz, fun hzy2 => absurd hzy2 h⟩
        · exact absurd hzy h
      · exact hy z hz

/-- Stability of the sort: if consecutive elements of `l` are `R`-related,
then in `sortBy le l` consecutive elements are `le`-ordered and `le`-ties
are still `R`-related in their original order. -/
theorem sortBy_pairwise (le : α → α → Bool) (R : α → α → Prop)
    (htot : ∀ a b, le a b = true ∨ le b a = true)
    (htrans : ∀ a b c, le a b = true → le b c = true → le a c = true)
    {l : List α} (hl : l.Pairwise R) :
    (sortBy le l).Pairwise
      (fun a b => le a b = true ∧ (le b a = true → R a b)) := by
  induction l with
  | nil => simp [sortBy]
  | cons x xs ih =>
    rcases List.pairwise_cons.mp hl with ⟨hx, hxs⟩
    refine insertBy_pairwise le R htot htrans ?_ (ih hxs)
    intro y hy
    exact hx y ((sortBy_perm le xs).mem_iff.mp hy)

/-- The sorted list is `le`-ordered. -/
theorem sortBy_sorted (le : α → α → Bool)
    (htot : ∀ a b, le a b = true ∨ le b a = true)
    (htrans : ∀ a b c, le a b = true → le b c = true → le a c = true)
    (l : List α) :
    (sortBy le l).Pairwise (fun a b => le a b = true) := by
  have htriv : l.Pairwise (fun _ _ => True) := by
    induction l with
    | nil => exact List.Pairwise.nil
    | cons a as ih => exact List.Pairwise.cons (fun _ _ => trivial) ih
  exact (sortBy_pairwise le (fun _ _ => True) htot htrans htriv).imp
    (fun h2 => h2.1)

/-! ### The lexicographic string order is a total order -/

theorem strLeChars_total : ∀ a b : List Char,
    strLeChars a b = true ∨ strLeChars b a = true := by
  intro a
  induction a with
  | nil => intro b; left; rfl
  | cons x xs ih =>
    intro b
    cases b with
    | nil => right; rfl
    | cons y ys =>
      simp only [strLeChars]
      rcases Nat.lt_trichotomy x.toNat y.toNat with h | h | h
      · left; simp [h]
      · have h1 : ¬ x.toNat < y.toNat := by omega
        have h2 : ¬ y.toNat < x.toNat := by omega
        rcases ih ys with h3 | h3
        · left; simp [h1, h2, h3]
        · right; simp [h1, h2, h3]
      · right; simp [h]

theorem strLeChars_trans : ∀ a b c : List Char,
    strLeChars a b = true → strLeChars b c = true → strLeChars a c = true := by
  intro a
  induction a with
  | nil => intro b c _ _; rfl
  | cons x xs ih =>
    intro b c hab hbc
    cases b with
    | nil => simp [strLeChars] at hab
    | cons y ys =>
      cases c with
      | nil => simp [strLeChars] at hbc
      | cons z zs =>
        simp only [strLeChars] at hab hbc ⊢
        split_ifs at hab hbc ⊢ with h1 h2 h3 h4 h5 h6 <;>
          first
          | rfl
          | omega
          | (exact hab)
          | (exact hbc)
          | (exact ih ys zs hab hbc)

theorem strLeChars_antisymm : ∀ a b : List Char,
    strLeChars a b = true → strLeChars b a = true → a = b := by
  intro a
  induction a with
  | nil =>
    intro b _ hba
    cases b with
    | nil => rfl
    | cons y ys => simp [strLeChars] at hba
  | cons x xs ih =>
    intro b hab hba
    cases b with
    | nil => simp [strLeChars] at hab
    | cons y ys =>
      simp only [strLeChars] at hab hba
      rcases Nat.lt_trichotomy x.toNat y.toNat with h | h | h
      · exfalso
        have h2 : ¬ y.toNat < x.toNat := by omega
        simp [h, h2] at hba
      · have h1 : ¬ x.toNat < y.toNat := by omega
        have h2 : ¬ y.toNat < x.toNat := by omega
        simp [h1, h2] at hab hba
        have hxy : x = y := Char.eq_of_val_eq (UInt32.ext (by
          have := h
          simp only [Char.toNat] at this
          omega))
        rw [hxy, ih ys hab hba]
      · exfalso
        have h1 : ¬ x.toNat < y.toNat := by omega
        simp [h1, h] at hab

theorem pyStrLe_total (a b : String) :
    pyStrLe a b = true ∨ pyStrLe b a = true :=
  strLeChars_total a.data b.data

theorem pyStrLe_trans (a b c : String) :
    pyStrLe a b = true → pyStrLe b c = true → pyStrLe a c = true :=
  strLeChars_trans a.data b.data c.data

theorem pyStrLe_antisymm (a b : String) :
    pyStrLe a b = true → pyStrLe b a = true → a = b := by
  intro hab hba
  cases a with
  | mk da =>
    cases b with
    | mk db =>
      have : da = db := strLeChars_antisymm da db hab hba
      rw [this]

/-! ### Facts about the per-file aggregation -/

/-- The entries of `ms` grouped under file key `k`. -/
def groupFilter (k : String) (ms : List MethodEntry) : List MethodEntry :=
  ms.filter fun m => decide (m.file = k)

/-- Folding a group of entries into an optional existing aggregate. -/
def mergeAgg (o : Option FileAgg) (l : List MethodEntry) : Option FileAgg :=
  match o, l with
  | none, [] => none
  | none, l => some ⟨total_covered l, total_lines l, l⟩
  | some a, l =>
    some ⟨a.lines_covered + total_covered l, a.lines_total + total_lines l,
          a.methods ++ l⟩

/-- The aggregate after one more entry is folded in (the defaultdict's
read-modify-write at source lines 45-47). -/
def bumpAgg (o : Option FileAgg) (m : MethodEntry) : FileAgg :=
  match o with
  | none => ⟨m.covered, m.total, [m]⟩
  | some a => ⟨a.lines_covered + m.covered, a.lines_total + m.total,
               a.methods ++ [m]⟩

theorem findAgg_updateAgg (acc : List (String × FileAgg)) (m : MethodEntry)
    (k : String) :
    findAgg k (updateAgg acc m) =
      if m.file = k then some (bumpAgg (findAgg k acc) m)
      else findAgg k acc := by
  induction acc with
  | nil =>
    by_cases h : m.file = k <;> simp [updateAgg, findAgg, bumpAgg, h]
  | cons p rest ih =>
    rcases p with ⟨k2, a⟩
    simp only [updateAgg]
    by_cases h1 : k2 = m.file
    · rw [if_pos h1]
      by_cases h2 : m.file = k
      · have h3 : k2 = k := h1.trans h2
        simp [findAgg, bumpAgg, h3, h2, h1]
      · have h3 : ¬ k2 = k := by rw [h1]; exact h2
        simp [findAgg, h3, h2]
    · rw [if_neg h1]
      by_cases h2 : k2 = k
      · have h3 : ¬ m.file = k := fun h => h1 (h2.trans h.symm)
        simp [findAgg, h2, h3]
      · simp [findAgg, h2, ih]

theorem mergeAgg_bump (o : Option FileAgg) (m : MethodEntry)
    (l : List MethodEntry) :
    mergeAgg (some (bumpAgg o m)) l = mergeAgg o (m :: l) := by
  rcases o with _ | a
  · simp [mergeAgg, bumpAgg, total_covered, total_lines]
  · simp [mergeAgg, bumpAgg, total_covered, total_lines, Nat.add_assoc]

theorem findAgg_foldl (ms : List MethodEntry) (acc : List (String × FileAgg))
    (k : String) :
    findAgg k (List.foldl updateAgg acc ms) =
      mergeAgg (findAgg k acc) (groupFilter k ms) := by
  induction ms generalizing acc with
  | nil =>
    rcases h : findAgg k acc with _ | a
    · simp [groupFilter, mergeAgg, h]
    · rcases a with ⟨c, t, l⟩
      simp [groupFilter, mergeAgg, h, total_covered, total_lines]
  | cons m rest ih =>
    have step : List.foldl updateAgg acc (m :: rest) =
        List.foldl updateAgg (updateAgg acc m) rest := rfl
    rw [step, ih, findAgg_updateAgg]
    by_cases hm : m.file = k
    · rw [if_pos hm]
      have hgf : groupFilter k (m :: rest) = m :: groupFilter k rest := by
        simp [groupFilter, hm]
      rw [hgf, mergeAgg_bump]
    · rw [if_neg hm]
      have hgf : groupFilter k (m :: rest) = groupFilter k rest := by
        simp [groupFilter, hm]
      rw [hgf]

theorem keys_updateAgg_of_mem (acc : List (String × FileAgg))
    (m : MethodEntry) (h : m.file ∈ acc.map Prod.fst) :
    (updateAgg acc m).map Prod.fst = acc.map Prod.fst := by
  induction acc with
  | nil => simp at h
  | cons p rest ih =>
    rcases p with ⟨k2, a⟩
    by_cases h1 : k2 = m.file
    · simp [updateAgg, h1]
    · have h2 : m.file ∈ rest.map Prod.fst := by
        rcases List.mem_cons.mp h with h3 | h3
        · exact absurd h3.symm h1
        · exact h3
      simp [updateAgg, h1, ih h2]

theorem keys_updateAgg_of_not_mem (acc : List (String × FileAgg))
    (m : MethodEntry) (h : m.file ∉ acc.map Prod.fst) :
    (updateAgg acc m).map Prod.fst = acc.map Prod.fst ++ [m.file] := by
  induction acc with
  | nil => simp [updateAgg]
  | cons p rest ih =>
    rcases p with ⟨k2, a⟩
    have h1 : k2 ≠ m.file := by
      intro h2
      exact h (by simp [h2])
    have h2 : m.file ∉ rest.map Prod.fst := by
      intro h3
      exact h (by simp [h3])
    simp [updateAgg, h1, ih h2]

theorem nodup_keys_updateAgg (acc : List (String × FileAgg))
    (m : MethodEntry) (h : (acc.map Prod.fst).Nodup) :
    ((updateAgg acc m).map Prod.fst).Nodup := by
  by_cases hm : m.file ∈ acc.map Prod.fst
  · rw [keys_updateAgg_of_mem acc m hm]; exact h
  · rw [keys_updateAgg_of_not_mem acc m hm]
    simp only [List.nodup_append, List.nodup_cons]
    refine ⟨h, by simp, ?_⟩
    intro a ha
    simp only [List.mem_singleton]
    intro hb
    rw [hb] at ha
    exact hm ha

theorem nodup_keys_foldl (ms : List MethodEntry)
    (acc : List (String × FileAgg)) (h : (acc.map Prod.fst).Nodup) :
    ((List.foldl updateAgg acc ms).map Prod.fst).Nodup := by
  induction ms generalizing acc with
  | nil => exact h
  | cons m rest ih => exact ih (updateAgg acc m) (nodup_keys_updateAgg acc m h)

theorem nodup_keys_coverage_by_file (ms : List MethodEntry) :
    ((coverage_by_file ms).map Prod.fst).Nodup :=
  nodup_keys_foldl ms [] (by simp)

theorem findAgg_of_mem {l : List (String × FileAgg)} {k : String}
    {a : FileAgg} (hnd : (l.map Prod.fst).Nodup) (h : (k, a) ∈ l) :
    findAgg k l = some a := by
  induction l with
  | nil => simp at h
  | cons p rest ih =>
    rcases p with ⟨k2, a2⟩
    simp only [List.map_cons, List.nodup_cons] at hnd
    rcases List.mem_cons.mp h with h1 | h1
    · rcases Prod.mk.injEq .. ▸ h1 with ⟨h2, h3⟩
      simp [findAgg, h2.symm, h3.symm]
    · have hk : k2 ≠ k := by
        intro h2
        subst h2
        exact hnd.1 (by simpa using List.mem_map_of_mem Prod.fst h1)
      simp [findAgg, hk, ih hnd.2 h1]

/-- The central grouping fact: the aggregate stored under `k` collects
exactly the entries whose file key is `k`, with the accumulated sums. -/
theorem mem_coverage_by_file {ms : List MethodEntry} {k : String}
    {a : FileAgg} (h : (k, a) ∈ coverage_by_file ms) :
    a.methods = groupFilter k ms ∧
    a.lines_covered = total_covered a.methods ∧
    a.lines_total = total_lines a.methods := by
  have hf : findAgg k (coverage_by_file ms) = some a :=
    findAgg_of_mem (nodup_keys_coverage_by_file ms) h
  rw [coverage_by_file, findAgg_foldl] at hf
  rcases hgf : groupFilter k ms with _ | ⟨m, rest⟩
  · rw [hgf] at hf
    simp [mergeAgg, findAgg] at hf
  · rw [hgf] at hf
    simp only [mergeAgg, findAgg, Option.some.injEq] at hf
    rw [← hf]
    exact ⟨rfl, rfl, rfl⟩

/-- The sum of accumulated covered counts over all aggregates. -/
def aggCoveredSum (l : List (String × FileAgg)) : Nat :=
  (l.map fun p => p.2.lines_covered).sum

/-- The sum of accumulated total counts over all aggregates. -/
def aggTotalSum (l : List (String × FileAgg)) : Nat :=
  (l.map fun p => p.2.lines_total).sum

theorem aggSums_updateAgg (acc : List (String × FileAgg)) (m : MethodEntry) :
    aggCoveredSum (updateAgg acc m) = aggCoveredSum acc + m.covered ∧
    aggTotalSum (updateAgg acc m) = aggTotalSum acc + m.total := by
  induction acc with
  | nil => simp [updateAgg, aggCoveredSum, aggTotalSum]
  | cons p rest ih =>
    rcases p with ⟨k2, a⟩
    by_cases h : k2 = m.file
    · simp only [updateAgg, if_pos h]
      constructor <;> (simp [aggCoveredSum, aggTotalSum]; omega)
    · simp only [updateAgg, if_neg h]
      constructor <;> (simp [aggCoveredSum, aggTotalSum] at ih ⊢; omega)

theorem aggSums_foldl (ms : List MethodEntry)
    (acc : List (String × FileAgg)) :
    aggCoveredSum (List.foldl updateAgg acc ms) =
      aggCoveredSum acc + total_covered ms ∧
    aggTotalSum (List.foldl updateAgg acc ms) =
      aggTotalSum acc + total_lines ms := by
  induction ms generalizing acc with
  | nil => simp [total_covered, total_lines]
  | cons m rest ih =>
    have step : List.foldl updateAgg acc (m :: rest) =
        List.foldl updateAgg (updateAgg acc m) rest := rfl
    rw [step]
    rcases ih (updateAgg acc m) with ⟨h1, h2⟩
    rcases aggSums_updateAgg acc m with ⟨h3, h4⟩
    constructor
    · rw [h1, h3]; simp [total_covered]; omega
    · rw [h2, h4]; simp [total_lines]; omega

/-! ### The shape of flattened entries -/

theorem mem_methodEntry_shape {m : MethodEntry} {fp nsn mn : String}
    {mi : MethodInfo} (h : m ∈ methodEntry fp nsn mn mi) :
    ∃ lines branches, mi = MethodInfo.dict (some lines) branches ∧
      lines ≠ [] ∧
      m = { file := file_key fp, ns := nsn, method := method_short mn,
            full_method := mn, covered := coveredCount lines,
            total := lines.length,
            coverage := coverage_pct (coveredCount lines) lines.length,
            branches := branches.getD [] } := by
  cases mi with
  | notDict => simp [methodEntry] at h
  | dict olines branches =>
    cases olines with
    | none => simp [methodEntry] at h
    | some lines =>
      by_cases hl : lines.isEmpty
      · simp [methodEntry, hl] at h
      · simp only [methodEntry, hl, if_neg, Bool.not_eq_true,
          List.mem_singleton] at h
        exact ⟨lines, branches, rfl, by simpa using hl, by simp [h]⟩

theorem mem_all_methods_shape {d : CoverageData} {m : MethodEntry}
    (h : m ∈ all_methods d) :
    ∃ fp nsn mn mi, m ∈ methodEntry fp nsn mn mi := by
  simp only [all_methods, binEntries, fileEntries, nsEntries,
    List.mem_flatMap] at h
  rcases h with ⟨b, _, f, hf, n, hn, mm, hmm, hm⟩
  exact ⟨f.1, n.1, mm.1, mm.2, hm⟩

/-! ### Bounds on the percentage computation -/

theorem coverage_pct_nonneg (c t : Nat) : 0 ≤ coverage_pct c t := by
  unfold coverage_pct
  split_ifs with h
  · positivity
  · exact le_refl 0

theorem coverage_pct_le_hundred {c t : Nat} (h : c ≤ t) :
    coverage_pct c t ≤ 100 := by
  unfold coverage_pct
  split_ifs with ht
  · have ht' : (0 : ℚ) < (t : ℚ) := by exact_mod_cast ht
    have hc' : (c : ℚ) ≤ (t : ℚ) := by exact_mod_cast h
    have h1 : (c : ℚ) / (t : ℚ) ≤ 1 := (div_le_one ht').mpr hc'
    have h2 : (c : ℚ) / (t : ℚ) * 100 ≤ 1 * 100 := by
      have : (0:ℚ) ≤ 100 := by norm_num
      exact mul_le_mul_of_nonneg_right h1 this
    simpa using h2
  · norm_num

/-! ### Concrete inputs used by the claim theorems -/

/-- A record whose only method has an empty line mapping: every method is
skipped, so the overall summary divides by a zero total. -/
def exC1 : CoverageData :=
  [("bin", [("f.cs", [("NS", [("M", MethodInfo.dict (some []) none)])])])]

/-- The record of the spec's worked example: one binary, one file, one
namespace, one method with lines `{1:1, 2:0, 3:1}` and branches
`[{Hits:0}, {Hits:2}]`. -/
def exC2 : CoverageData :=
  [("bin", [("C:\\proj\\File.cs",
    [("Ns", [("Ns::Method(int)",
      MethodInfo.dict (some [("1", 1), ("2", 0), ("3", 1)])
        (some [⟨some 0⟩, ⟨some 2⟩]))])])])]

/-! ### The claims -/

/-- C1 (counterexample): the per-method and per-file percentages are
guarded, but the overall summary percentage is not.  On a record whose only
method has an empty line mapping, every method is skipped, the summary's
total line count is 0, and the summary percentage is a division error
(`none`), not 0. -/
theorem summary_pct_division_error :
    total_lines (all_methods exC1) = 0 ∧
    overall_line_coverage (all_methods exC1) = none := by
  norm_num +decide [exC1, all_methods, binEntries, fileEntries, nsEntries,
    methodEntry, total_lines, overall_line_coverage, pydiv, total_covered]

/-- C1 (amended): the per-method percentage (source line 19) and the
per-file percentage (source line 53) are explicitly guarded and return 0
when the total is 0; the overall summary percentage (source line 94) is
unguarded, and is a division error exactly when the total line count over
all entries is 0. -/
theorem pct_zero_guards (c : Nat) (l : List MethodEntry)
    (ms : List MethodEntry) :
    coverage_pct c 0 = 0 ∧
    file_coverage ⟨c, 0, l⟩ = 0 ∧
    (overall_line_coverage ms = none ↔ total_lines ms = 0) := by
  refine ⟨by simp [coverage_pct], by simp [file_coverage], ?_⟩
  unfold overall_line_coverage pydiv
  constructor
  · intro h
    by_cases h0 : (total_lines ms : ℚ) = 0
    · exact_mod_cast h0
    · simp [h0] at h
  · intro h
    simp [h]

/-- C2 (confirmed): flattening the spec's worked example produces exactly
one Method Entry, with covered = 2, total = 3, coverage = 200/3, and the
entry has exactly 1 uncovered branch. -/
theorem single_method_flatten_eval :
    all_methods exC2 =
      [{ file := "File.cs", ns := "Ns", method := "Method",
         full_method := "Ns::Method(int)", covered := 2, total := 3,
         coverage := 200 / 3,
         branches := [⟨some 0⟩, ⟨some 2⟩] }] ∧
    (all_methods exC2).map uncovered_branches = [1] := by
  constructor
  · norm_num +decide [exC2, all_methods, binEntries, fileEntries, nsEntries,
      methodEntry, coveredCount, coverage_pct, file_key, method_short,
      pySplitChar, pySplitTwo, splitOnChar, splitOnTwo]
  · norm_num +decide [exC2, all_methods, binEntries, fileEntries, nsEntries,
      methodEntry, coveredCount, uncovered_branches, branchIsUncovered]

/-- C3 (confirmed): a method whose line mapping is empty produces no
Method Entry: removing it from anywhere in the record leaves the flattened
list — and hence every derived list and sum — unchanged. -/
theorem empty_lines_method_skipped
    (bins1 bins2 : CoverageData) (bn : String)
    (files1 files2 : List (String × List (String × List (String × MethodInfo))))
    (fp : String)
    (nss1 nss2 : List (String × List (String × MethodInfo)))
    (nsn : String)
    (ms1 ms2 : List (String × MethodInfo)) (mn : String)
    (br : Option (List Branch)) :
    all_methods (bins1 ++ (bn, files1 ++ (fp, nss1 ++
        (nsn, ms1 ++ (mn, MethodInfo.dict (some []) br) :: ms2) :: nss2)
        :: files2) :: bins2) =
      all_methods (bins1 ++ (bn, files1 ++ (fp, nss1 ++
        (nsn, ms1 ++ ms2) :: nss2) :: files2) :: bins2) ∧
    methodEntry fp nsn mn (MethodInfo.dict (some []) br) = [] := by
  constructor
  · simp [all_methods, binEntries, fileEntries, nsEntries, methodEntry]
  · simp [methodEntry]

/-- C9 (confirmed): a method detail that is not a dict, or a dict without a
line-mapping field, is silently skipped during flattening: it produces no
Method Entry, and removing it from anywhere in the record leaves the
flattened list unchanged, the rest of the record still being processed. -/
theorem malformed_method_skipped
    (bins1 bins2 : CoverageData) (bn : String)
    (files1 files2 : List (String × List (String × List (String × MethodInfo))))
    (fp : String)
    (nss1 nss2 : List (String × List (String × MethodInfo)))
    (nsn : String)
    (ms1 ms2 : List (String × MethodInfo)) (mn : String)
    (br : Option (List Branch)) :
    methodEntry fp nsn mn MethodInfo.notDict = [] ∧
    methodEntry fp nsn mn (MethodInfo.dict none br) = [] ∧
    all_methods (bins1 ++ (bn, files1 ++ (fp, nss1 ++
        (nsn, ms1 ++ (mn, MethodInfo.notDict) :: ms2) :: nss2)
        :: files2) :: bins2) =
      all_methods (bins1 ++ (bn, files1 ++ (fp, nss1 ++
        (nsn, ms1 ++ ms2) :: nss2) :: files2) :: bins2) ∧
    all_methods (bins1 ++ (bn, files1 ++ (fp, nss1 ++
        (nsn, ms1 ++ (mn, MethodInfo.dict none br) :: ms2) :: nss2)
        :: files2) :: bins2) =
      all_methods (bins1 ++ (bn, files1 ++ (fp, nss1 ++
        (nsn, ms1 ++ ms2) :: nss2) :: files2) :: bins2) := by
  refine ⟨rfl, rfl, ?_, ?_⟩ <;>
    simp [all_methods, binEntries, fileEntries, nsEntries, methodEntry]

/-- C4 (confirmed): every flattened Method Entry satisfies
`0 ≤ covered ≤ total` and `0 ≤ coverage ≤ 100`, and every file aggregate
satisfies `covered ≤ total`. -/
theorem entry_and_aggregate_bounds (d : CoverageData) :
    (∀ m ∈ all_methods d,
      0 ≤ m.covered ∧ m.covered ≤ m.total ∧
      0 ≤ m.coverage ∧ m.coverage ≤ 100) ∧
    (∀ p ∈ coverage_by_file (all_methods d),
      p.2.lines_covered ≤ p.2.lines_total) := by
  have hentry : ∀ m ∈ all_methods d,
      0 ≤ m.covered ∧ m.covered ≤ m.total ∧
      0 ≤ m.coverage ∧ m.coverage ≤ 100 := by
    intro m hm
    rcases mem_all_methods_shape hm with ⟨fp, nsn, mn, mi, hmi⟩
    rcases mem_methodEntry_shape hmi with ⟨lines, branches, _, _, hm2⟩
    have hct : coveredCount lines ≤ lines.length := List.countP_le_length _
    subst hm2
    exact ⟨Nat.zero_le _, hct, coverage_pct_nonneg (coveredCount lines)
      lines.length, coverage_pct_le_hundred hct⟩
  refine ⟨hentry, ?_⟩
  intro p hp
  rcases p with ⟨k, a⟩
  rcases mem_coverage_by_file hp with ⟨hm, hc, ht⟩
  rw [hc, ht]
  unfold total_covered total_lines
  apply List.sum_le_sum
  intro m hmm
  have hall : m ∈ all_methods d := by
    rw [hm] at hmm
    exact (List.mem_filter.mp hmm).1
  exact (hentry m hall).2.1

/-- The single-method record used to witness C4. -/
def exC4 : CoverageData :=
  [("bin", [("f.cs", [("NS", [("M", MethodInfo.dict (some [("1", 1)]) none)])])])]

/-- The Method Entry the C4 witness record flattens to. -/
def eC4 : MethodEntry :=
  { file := "f.cs", ns := "NS", method := "M", full_method := "M",
    covered := 1, total := 1, coverage := coverage_pct 1 1, branches := [] }

/-- The file aggregate the C4 witness record groups to. -/
def aggC4 : FileAgg := ⟨1, 1, [eC4]⟩

/-- C4 witness: the bounds evaluated on a concrete record. -/
theorem entry_and_aggregate_bounds_witness :
    eC4 ∈ all_methods exC4 ∧
    ("f.cs", aggC4) ∈ coverage_by_file (all_methods exC4) ∧
    (0 ≤ eC4.covered ∧ eC4.covered ≤ eC4.total ∧
      0 ≤ eC4.coverage ∧ eC4.coverage ≤ 100) ∧
    aggC4.lines_covered ≤ aggC4.lines_total := by
  have h1 : eC4 ∈ all_methods exC4 := by
    have h : all_methods exC4 = [eC4] := rfl
    rw [h]
    exact List.mem_singleton.mpr rfl
  have h2 : ("f.cs", aggC4) ∈ coverage_by_file (all_methods exC4) := by
    have h : coverage_by_file (all_methods exC4) = [("f.cs", aggC4)] := rfl
    rw [h]
    exact List.mem_singleton.mpr rfl
  exact ⟨h1, h2, (entry_and_aggregate_bounds exC4).1 eC4 h1,
    (entry_and_aggregate_bounds exC4).2 ("f.cs", aggC4) h2⟩

/-- C5 (confirmed): the uncovered list holds exactly the entries with
coverage exactly 0, is sorted by descending total line count, the report
prints its first 20 entries, and states a remainder of `length - 20`
exactly when more than 20 exist. -/
theorem uncovered_list_spec (d : CoverageData) :
    (uncovered (all_methods d)).Perm
      ((all_methods d).filter fun m => decide (m.coverage = 0)) ∧
    (∀ m, m ∈ uncovered (all_methods d) ↔
      m ∈ all_methods d ∧ m.coverage = 0) ∧
    (uncovered (all_methods d)).Pairwise (fun a b => b.total ≤ a.total) ∧
    (uncovered_report (all_methods d)).1 = (uncovered (all_methods d)).take 20 ∧
    (uncovered_report (all_methods d)).2 =
      (if (uncovered (all_methods d)).length > 20 then
        some ((uncovered (all_methods d)).length - 20) else none) := by
  have hperm : (uncovered (all_methods d)).Perm
      ((all_methods d).filter fun m => decide (m.coverage = 0)) :=
    sortBy_perm _ _
  refine ⟨hperm, ?_, ?_, rfl, rfl⟩
  · intro m
    rw [hperm.mem_iff, List.mem_filter]
    simp
  · have h := sortBy_sorted
      (fun a b : MethodEntry => decide (b.total ≤ a.total)) ?_ ?_
      ((all_methods d).filter fun m => decide (m.coverage = 0))
    · exact h.imp (fun hab => of_decide_eq_true hab)
    · intro a b
      rcases Nat.le_total b.total a.total with h | h
      · left; exact decide_eq_true h
      · right; exact decide_eq_true h
    · intro a b c hab hbc
      exact decide_eq_true
        (Nat.le_trans (of_decide_eq_true hbc) (of_decide_eq_true hab))

/-- C6 (confirmed): the per-file aggregate sums of covered and total line
counts equal the corresponding sums over all Method Entries, and the
overall summary is the division of exactly these sums. -/
theorem aggregate_sums_match_entry_sums (d : CoverageData) :
    aggCoveredSum (coverage_by_file (all_methods d)) =
      total_covered (all_methods d) ∧
    aggTotalSum (coverage_by_file (all_methods d)) =
      total_lines (all_methods d) ∧
    overall_line_coverage (all_methods d) =
      (pydiv (aggCoveredSum (coverage_by_file (all_methods d)) : ℚ)
        (aggTotalSum (coverage_by_file (all_methods d)) : ℚ)).map
        (· * 100) := by
  have h := aggSums_foldl (all_methods d) []
  have h1 : aggCoveredSum (coverage_by_file (all_methods d)) =
      total_covered (all_methods d) := by
    have h2 := h.1
    simpa [aggCoveredSum] using h2
  have h2 : aggTotalSum (coverage_by_file (all_methods d)) =
      total_lines (all_methods d) := by
    have h3 := h.2
    simpa [aggTotalSum] using h3
  refine ⟨h1, h2, ?_⟩
  rw [h1, h2]
  rfl

/-- C7 (confirmed): every flattened entry's file key is the basename (the
last backslash-separated component) of the path it appears under, and the
aggregation groups entries by exactly that key. -/
theorem file_key_basename_grouping :
    (∀ (fp : String) (nss : List (String × List (String × MethodInfo)))
       (m : MethodEntry), m ∈ fileEntries fp nss → m.file = file_key fp) ∧
    (∀ (ms : List MethodEntry) (k : String) (a : FileAgg),
       (k, a) ∈ coverage_by_file ms →
       a.methods = groupFilter k ms ∧
       a.lines_covered = total_covered a.methods ∧
       a.lines_total = total_lines a.methods) := by
  constructor
  · intro fp nss m hm
    simp only [fileEntries, nsEntries, List.mem_flatMap] at hm
    rcases hm with ⟨p, hp, q, hq, hm⟩
    rcases mem_methodEntry_shape hm with ⟨lines, branches, _, _, hm2⟩
    rw [hm2]
  · intro ms k a h
    exact mem_coverage_by_file h

/-- The namespaces list used to witness C7. -/
def nssC7 : List (String × List (String × MethodInfo)) :=
  [("NS", [("M", MethodInfo.dict (some [("1", 0)]) none)])]

/-- The Method Entry the C7 witness flattens to. -/
def eC7 : MethodEntry :=
  { file := "g.cs", ns := "NS", method := "M", full_method := "M",
    covered := 0, total := 1, coverage := coverage_pct 0 1, branches := [] }

/-- The file aggregate the C7 witness groups to. -/
def aggC7 : FileAgg := ⟨0, 1, [eC7]⟩

/-- C7 witness: the basename and grouping facts evaluated on a concrete
path and entry list. -/
theorem file_key_basename_grouping_witness :
    eC7 ∈ fileEntries "C:\\dir\\g.cs" nssC7 ∧
    eC7.file = file_key "C:\\dir\\g.cs" ∧
    ("g.cs", aggC7) ∈ coverage_by_file [eC7] ∧
    (aggC7.methods = groupFilter "g.cs" [eC7] ∧
      aggC7.lines_covered = total_covered aggC7.methods ∧
      aggC7.lines_total = total_lines aggC7.methods) := by
  have h1 : eC7 ∈ fileEntries "C:\\dir\\g.cs" nssC7 := by
    have h : fileEntries "C:\\dir\\g.cs" nssC7 = [eC7] := rfl
    rw [h]
    exact List.mem_singleton.mpr rfl
  have h2 : ("g.cs", aggC7) ∈ coverage_by_file [eC7] := by
    have h : coverage_by_file [eC7] = [("g.cs", aggC7)] := rfl
    rw [h]
    exact List.mem_singleton.mpr rfl
  exact ⟨h1, file_key_basename_grouping.1 "C:\\dir\\g.cs" nssC7 eC7 h1, h2,
    file_key_basename_grouping.2 [eC7] "g.cs" aggC7 h2⟩

/-- A record with two files inserted in the order `b.cs`, `a.cs`, both at
0% coverage: a tie in the ranking sort. -/
def exC8 : CoverageData :=
  [("bin", [("b.cs", [("N", [("M1", MethodInfo.dict (some [("1", 0)]) none)])]),
            ("a.cs", [("N", [("M2", MethodInfo.dict (some [("1", 0)]) none)])])])]

/-- C8 (counterexample): ties in the per-file ranking are NOT broken by
insertion order.  On `exC8` the aggregation encounters `b.cs` before
`a.cs` and both files have the same (0%) coverage, yet the printed ranking
is `a.cs` before `b.cs`, because the keys are iterated in sorted
(lexicographic) order at source line 51 before the stable sort by
percentage at line 56. -/
theorem ranking_tie_not_insertion_order :
    (coverage_by_file (all_methods exC8)).map Prod.fst = ["b.cs", "a.cs"] ∧
    (file_ranking (all_methods exC8)).map FileStat.cov = [0, 0] ∧
    (file_ranking (all_methods exC8)).map FileStat.key = ["a.cs", "b.cs"] ∧
    (file_ranking (all_methods exC8)).map FileStat.key ≠
      (coverage_by_file (all_methods exC8)).map Prod.fst := by
  norm_num +decide [exC8, all_methods, binEntries, fileEntries, nsEntries,
    methodEntry, coveredCount, coverage_pct, file_key, pySplitChar,
    splitOnChar, method_short, pySplitTwo, splitOnTwo, coverage_by_file,
    updateAgg, file_ranking, file_stats, sortedKeys, sortBy, insertBy,
    pyStrLe, strLeChars, dget, findAgg, file_coverage]

/-- C8 (amended): the per-file ranking lists all file aggregates in
ascending order of coverage percentage, with ties between files of equal
percentage broken by ascending lexicographic order of the file key (the
keys are pre-sorted alphabetically, and the final sort by percentage is
stable). -/
theorem ranking_sorted_with_lex_ties (ms : List MethodEntry) :
    (file_ranking ms).Perm (file_stats ms) ∧
    (file_stats ms).map FileStat.key = sortedKeys (coverage_by_file ms) ∧
    (file_ranking ms).Pairwise (fun a b =>
      a.cov < b.cov ∨
      (a.cov = b.cov ∧ pyStrLe a.key b.key = true ∧ a.key ≠ b.key)) := by
  refine ⟨sortBy_perm _ _, ?_, ?_⟩
  · show ((sortedKeys (coverage_by_file ms)).map _).map FileStat.key = _
    rw [List.map_map]
    have h : ∀ k, (FileStat.key ∘ fun k2 =>
        (⟨k2, file_coverage (dget (coverage_by_file ms) k2),
          (dget (coverage_by_file ms) k2).lines_covered,
          (dget (coverage_by_file ms) k2).lines_total⟩ : FileStat)) k = k :=
      fun k => rfl
    calc (sortedKeys (coverage_by_file ms)).map _
        = (sortedKeys (coverage_by_file ms)).map id :=
          List.map_congr_left (fun k _ => h k)
      _ = sortedKeys (coverage_by_file ms) := List.map_id _
  · have hnd : (sortedKeys (coverage_by_file ms)).Nodup :=
      ((sortBy_perm pyStrLe ((coverage_by_file ms).map Prod.fst)).nodup_iff).mpr
        (nodup_keys_coverage_by_file ms)
    have hsorted : (sortedKeys (coverage_by_file ms)).Pairwise
        (fun a b => pyStrLe a b = true) :=
      sortBy_sorted pyStrLe pyStrLe_total pyStrLe_trans _
    have hkeys : (sortedKeys (coverage_by_file ms)).Pairwise
        (fun a b => pyStrLe a b = true ∧ a ≠ b) := hsorted.and hnd
    have hstats : (file_stats ms).Pairwise
        (fun s t => pyStrLe s.key t.key = true ∧ s.key ≠ t.key) := by
      show (((sortedKeys (coverage_by_file ms)).map _).Pairwise _)
      rw [List.pairwise_map]
      exact hkeys
    have htot : ∀ a b : FileStat,
        decide (a.cov ≤ b.cov) = true ∨ decide (b.cov ≤ a.cov) = true := by
      intro a b
      rcases le_total a.cov b.cov with h | h
      · left; exact decide_eq_true h
      · right; exact decide_eq_true h
    have htrans : ∀ a b c : FileStat, decide (a.cov ≤ b.cov) = true →
        decide (b.cov ≤ c.cov) = true → decide (a.cov ≤ c.cov) = true := by
      intro a b c h1 h2
      exact decide_eq_true
        (le_trans (of_decide_eq_true h1) (of_decide_eq_true h2))
    have hstab := sortBy_pairwise
      (fun a b : FileStat => decide (a.cov ≤ b.cov))
      (fun s t => pyStrLe s.key t.key = true ∧ s.key ≠ t.key)
      htot htrans hstats
    refine hstab.imp ?_
    intro a b hab
    rcases hab with ⟨h1, h2⟩
    by_cases hba : b.cov ≤ a.cov
    · exact Or.inr ⟨le_antisymm (of_decide_eq_true h1) hba,
        h2 (decide_eq_true hba)⟩
    · exact Or.inl (lt_of_le_not_le (of_decide_eq_true h1) hba)

/-- C10 (confirmed): a branch record without a hit-count field is treated
exactly like one with hit count 0: it counts as uncovered in the
incompletely-covered annotation (`uncovered_branches`) and swapping one for
the other anywhere leaves the branch gap analysis unchanged. -/
theorem missing_hits_as_zero (m : MethodEntry) (l1 l2 : List Branch)
    (ms1 ms2 : List MethodEntry) :
    branchIsUncovered ⟨none⟩ = true ∧
    branchIsUncovered ⟨some 0⟩ = true ∧
    uncovered_branches { m with branches := l1 ++ ⟨none⟩ :: l2 } =
      uncovered_branches { m with branches := l1 ++ ⟨some 0⟩ :: l2 } ∧
    methods_with_uncovered_branches
        (ms1 ++ { m with branches := l1 ++ ⟨none⟩ :: l2 } :: ms2) =
      methods_with_uncovered_branches
        (ms1 ++ { m with branches := l1 ++ ⟨some 0⟩ :: l2 } :: ms2) := by
  refine ⟨rfl, rfl, ?_, ?_⟩
  · simp [uncovered_branches, branchIsUncovered, List.countP_append,
      List.countP_cons]
  · unfold methods_with_uncovered_branches
    congr 1
    simp [List.filter_append, List.filter_cons, branchTuple,
      branchIsUncovered]

end AnalyzeCoverage
